import Mathlib

/-!
Shallow embedding of the concurrency/commit core of `block-rust`
(an embedded, log-structured, multi-tree key/value store).

The embedding follows the Rust sources under `src/`:
  * `index.rs`   — MVCC index read path (`Index::read`);
  * `tree.rs`    — `Tree::read`, `BatchWriter` mutators / `append_record` /
                   `commit` (index promotion) / `close`;
  * `basic_db.rs`— `BatchWriter::commit` (master commit record, index
                   promotion, `view_commit_limit` bump) and the
                   `tree_writer` / `ViewReader` tree lookups;
  * `imp.rs`     — the two-phase `WriteBatch::commit` ready/abort loop;
  * `compacting_tree.rs` — the compaction state machine and merge cursor.

Machine integers (u64 counters) are modelled as `Nat` with explicit
wrap-around `% 2^64` where the source uses `fetch_add`, and the source's
assertions are modelled as an explicit `assertFail` outcome.
Rust `Result` becomes `Option`-carrying outcomes; log I/O, which is
external to the core, is modelled by boolean success oracles.
Modules of the repository that are absent from `src/` (`types.rs`,
`command.rs`, `log.rs`, `batch_player.rs`, `commit_log.rs`) are modelled
from the spec; each such definition says so in its doc comment.
-/

namespace BlockRust

/-- Keys are opaque totally ordered byte sequences (`types.rs` is absent
from `src/`; `index.rs` uses `Key(String)`); only their total order and
equality matter to the core, so they are modelled as `Nat`. -/
abbrev Key := Nat

/-- Values are opaque byte sequences, modelled as `String`. -/
abbrev Val := String

/-- Log addresses: opaque locations yielded by append, modelled as the
record's position in the log list. -/
abbrev Addr := Nat

/-- `index.rs` `Value`: the per-entry value status held in a node's
history, `Written(Address) | Deleted(Address)`. -/
inductive IdxValue where
  | Written (addr : Addr)
  | Deleted (addr : Addr)
deriving Repr, DecidableEq

/-- A node's history: `Vec<(Generation, Value)>` from `index.rs`, stored
oldest-first (Rust pushes at the end). -/
abbrev History := List (Nat × IdxValue)

/-- The index key map `BTreeMap<Key, Node>` from `index.rs`, modelled as
an association list (one entry per key). -/
abbrev Index := List (Key × History)

/-- The history scan of `Index::read` (`index.rs` lines 52-56): iterate
`history.iter().rev()` and return the first `(h_gen, value)` with
`h_gen < gen`.  The argument is the already-reversed history. -/
def histLookup (gen : Nat) : History → Option IdxValue
  | [] => none
  | e :: rest => if e.1 < gen then some e.2 else histLookup gen rest

/-- `map.get(key)` on the index key map. -/
def Index.lookupNode (idx : Index) (key : Key) : Option History :=
  match idx with
  | [] => none
  | (k, h) :: rest => if k = key then some h else Index.lookupNode rest key

/-- `Index::read` (`index.rs` lines 48-61): locate the node for `key`;
scan its history newest-to-oldest and return the first entry with
`h_gen < gen`; `None` if the key is absent or no entry qualifies. -/
def Index.read (idx : Index) (gen : Nat) (key : Key) : Option IdxValue :=
  match idx.lookupNode key with
  | some history => histLookup gen history.reverse
  | none => none

/-- Per-tree log record (`command.rs` is absent from `src/`; the
variants and their fields are exactly those constructed in `tree.rs`
lines 65-155). -/
inductive Command where
  | Open (batch : Nat)
  | Write (batch : Nat) (key : Key) (value : Val)
  | Delete (batch : Nat) (key : Key)
  | DeleteRange (batch : Nat) (start_key end_key : Key)
  | PushSavePoint (batch : Nat)
  | PopSavePoint (batch : Nat)
  | RollbackSavePoint (batch : Nat)
  | ReadyCommit (batch : Nat) (batch_commit : Nat)
  | AbortCommit (batch : Nat) (batch_commit : Nat)
  | Close (batch : Nat)
deriving Repr, DecidableEq

/-- The batch identifier every command variant carries. -/
def Command.batch : Command → Nat
  | .Open b => b
  | .Write b _ _ => b
  | .Delete b _ => b
  | .DeleteRange b _ _ => b
  | .PushSavePoint b => b
  | .PopSavePoint b => b
  | .RollbackSavePoint b => b
  | .ReadyCommit b _ => b
  | .AbortCommit b _ => b
  | .Close b => b

/-- Error kinds surfaced by the modelled operations (§7). -/
inductive Err where
  | logIo
  | unexpectedCommand
  | commitMasterWriteFailed
deriving Repr, DecidableEq

/-- The state `tree.rs` `Tree` binds: one log (a list of records, the
address of a record being its position), one batch player (its ordered
recording), one index. -/
structure TreeState where
  log : List Command
  player : List (Command × Addr)
  index : Index
deriving Repr, DecidableEq

/-- Modelled from the spec: `batch_player.rs` is absent from `src/`.
`BatchPlayer::record(command, address)` "appends an entry" to the
player's ordered recording of events (§4.4). -/
def BatchPlayer.record (player : List (Command × Addr)) (cmd : Command)
    (address : Addr) : List (Command × Addr) :=
  player ++ [(cmd, address)]

/-- Modelled from the spec: `batch_player.rs` is absent from `src/`.
`BatchPlayer::emergency_close(batch)` "discards a batch's state after a
failed close" (§4.4). -/
def BatchPlayer.emergencyClose (player : List (Command × Addr))
    (batch : Nat) : List (Command × Addr) :=
  player.filter (fun p => p.1.batch != batch)

/-- `BatchWriter::append_record` (`tree.rs` lines 157-161): append the
command to the tree's log — fallible I/O, modelled by the `appendOk`
oracle — and only after the append succeeds record `(command, address)`
in the batch player; on failure return the error with nothing recorded. -/
def TreeBW.appendRecord (ts : TreeState) (cmd : Command) (appendOk : Bool) :
    TreeState × Option Err :=
  if appendOk then
    ({ ts with
        log := ts.log ++ [cmd],
        player := BatchPlayer.record ts.player cmd ts.log.length }, none)
  else (ts, some .logIo)

/-- `BatchWriter::open` (`tree.rs` lines 65-69). -/
def TreeBW.openTree (ts : TreeState) (batch : Nat) (appendOk : Bool) :=
  TreeBW.appendRecord ts (.Open batch) appendOk

/-- `BatchWriter::write` (`tree.rs` lines 71-77). -/
def TreeBW.write (ts : TreeState) (batch : Nat) (key : Key) (value : Val)
    (appendOk : Bool) :=
  TreeBW.appendRecord ts (.Write batch key value) appendOk

/-- `BatchWriter::delete` (`tree.rs` lines 79-84). -/
def TreeBW.delete (ts : TreeState) (batch : Nat) (key : Key) (appendOk : Bool) :=
  TreeBW.appendRecord ts (.Delete batch key) appendOk

/-- `BatchWriter::delete_range` (`tree.rs` lines 86-92). -/
def TreeBW.deleteRange (ts : TreeState) (batch : Nat) (start_key end_key : Key)
    (appendOk : Bool) :=
  TreeBW.appendRecord ts (.DeleteRange batch start_key end_key) appendOk

/-- `BatchWriter::push_save_point` (`tree.rs` lines 94-98). -/
def TreeBW.pushSavePoint (ts : TreeState) (batch : Nat) (appendOk : Bool) :=
  TreeBW.appendRecord ts (.PushSavePoint batch) appendOk

/-- `BatchWriter::pop_save_point` (`tree.rs` lines 100-104). -/
def TreeBW.popSavePoint (ts : TreeState) (batch : Nat) (appendOk : Bool) :=
  TreeBW.appendRecord ts (.PopSavePoint batch) appendOk

/-- `BatchWriter::rollback_save_point` (`tree.rs` lines 106-110). -/
def TreeBW.rollbackSavePoint (ts : TreeState) (batch : Nat) (appendOk : Bool) :=
  TreeBW.appendRecord ts (.RollbackSavePoint batch) appendOk

/-- `BatchWriter::ready_commit` (`tree.rs` lines 112-117). -/
def TreeBW.readyCommit (ts : TreeState) (batch batch_commit : Nat)
    (appendOk : Bool) :=
  TreeBW.appendRecord ts (.ReadyCommit batch batch_commit) appendOk

/-- `BatchWriter::abort_commit` (`tree.rs` lines 119-124). -/
def TreeBW.abortCommit (ts : TreeState) (batch batch_commit : Nat)
    (appendOk : Bool) :=
  TreeBW.appendRecord ts (.AbortCommit batch batch_commit) appendOk

/-- `BatchWriter::close` (`tree.rs` lines 144-155): append `Close{batch}`
via `append_record`; if the append fails, call `emergency_close` on the
batch player and return the error. -/
def TreeBW.close (ts : TreeState) (batch : Nat) (appendOk : Bool) :
    TreeState × Option Err :=
  let res := TreeBW.appendRecord ts (.Close batch) appendOk
  match res.2 with
  | some e =>
    ({ res.1 with player := BatchPlayer.emergencyClose res.1.player batch },
     some e)
  | none => res

/-- Outcome of `Tree::read`: a successful `Option<Value>`, a surfaced
error, or a failed `assert!` (Rust panic). -/
inductive ReadOutcome where
  | ok (v : Option Val)
  | err (e : Err)
  | assertFail
deriving Repr, DecidableEq

/-- `Tree::read` (`tree.rs` lines 37-54): query the index at
`commit_limit`; on a visible `Written(addr)`, read the log record at
`addr` (the fallible log read is modelled by the `readOk` oracle),
require a `Write` record — anything else is "unexpected command in log"
— assert its key equals the requested key, and return `Some(value)`.
The commit-typed index `tree.rs` consumes is absent from `src/` (the
`index.rs` present is a generation-typed sketch of the same read
algorithm); per §4.3, a visible `Deleted(_)` or an absent key returns
`None` without touching the log. -/
def Tree.readTree (ts : TreeState) (commit_limit : Nat) (key : Key)
    (readOk : Bool) : ReadOutcome :=
  match ts.index.read commit_limit key with
  | some (.Written addr) =>
    if readOk then
      match ts.log[addr]? with
      | some (.Write _ k v) => if k = key then .ok (some v) else .assertFail
      | some _ => .err .unexpectedCommand
      | none => .err .logIo
    else .err .logIo
  | some (.Deleted _) => .ok none
  | none => .ok none

/-- Modelled from the spec: the commit-typed `IndexWriter` used by
`tree.rs` `BatchWriter::commit` is absent from `src/`. §4.5 write path:
append `(commit, Written(addr))` to the target node's history, inserting
a new node if the key is fresh. -/
def Index.writeKey (idx : Index) (commit : Nat) (key : Key) (addr : Addr) :
    Index :=
  match idx with
  | [] => [(key, [(commit, IdxValue.Written addr)])]
  | (k, h) :: rest =>
    if k = key then (k, h ++ [(commit, IdxValue.Written addr)]) :: rest
    else (k, h) :: Index.writeKey rest commit key addr

/-- Modelled from the spec: §4.5 write path, `Deleted` case: append
`(commit, Deleted(addr))` to the target node's history, inserting a new
node if the key is fresh. -/
def Index.deleteKey (idx : Index) (commit : Nat) (key : Key) (addr : Addr) :
    Index :=
  match idx with
  | [] => [(key, [(commit, IdxValue.Deleted addr)])]
  | (k, h) :: rest =>
    if k = key then (k, h ++ [(commit, IdxValue.Deleted addr)]) :: rest
    else (k, h) :: Index.deleteKey rest commit key addr

/-- Modelled from the spec: §4.5 write path, `DeleteRange`: enumerate the
existing nodes in the half-open key range `[start_key, end_key)` and
append a `(commit, Deleted(addr))` entry to each. -/
def Index.deleteKeyRange (idx : Index) (commit : Nat)
    (start_key end_key : Key) (addr : Addr) : Index :=
  idx.map (fun e =>
    if start_key ≤ e.1 ∧ e.1 < end_key then
      (e.1, e.2 ++ [(commit, IdxValue.Deleted addr)])
    else e)

/-- Index operations produced by `BatchPlayer::replay`, consumed by
`tree.rs` `BatchWriter::commit` (the `IndexOp` variants and fields are
those matched there, lines 129-140). -/
inductive IndexOp where
  | Write (key : Key) (address : Addr)
  | Delete (key : Key) (address : Addr)
  | DeleteRange (start_key end_key : Key) (address : Addr)
deriving Repr, DecidableEq

/-- Push an op onto the innermost (head) save-point frame. -/
def pushOp (frames : List (List IndexOp)) (op : IndexOp) :
    List (List IndexOp) :=
  match frames with
  | top :: more => (top ++ [op]) :: more
  | [] => [[op]]

/-- Modelled from the spec: `batch_player.rs` is absent from `src/`.
The save-point projection of `BatchPlayer::replay` (§4.4): writes and
deletes accumulate in the innermost frame; `PushSavePoint` starts a
frame; `PopSavePoint` commits the frame's mutations into the enclosing
frame; `RollbackSavePoint` discards the mutations recorded since the
matching push. The head of the frame stack is the innermost frame. -/
def replayFrames : List (Command × Addr) → List (List IndexOp) →
    List (List IndexOp)
  | [], frames => frames
  | (cmd, address) :: rest, frames =>
    let frames' :=
      match cmd with
      | .Write _ key _ => pushOp frames (.Write key address)
      | .Delete _ key => pushOp frames (.Delete key address)
      | .DeleteRange _ s e => pushOp frames (.DeleteRange s e address)
      | .PushSavePoint _ => [] :: frames
      | .PopSavePoint _ =>
        match frames with
        | top :: next :: more => (next ++ top) :: more
        | fs => fs
      | .RollbackSavePoint _ =>
        match frames with
        | _ :: next :: more => next :: more
        | fs => fs
      | _ => frames
    replayFrames rest frames'

/-- Modelled from the spec: `BatchPlayer::replay(batch, batch_commit)`
(§4.4) projects the batch's recorded mutations through its save-point
stack into the ordered sequence of `IndexOp`s to apply. -/
def BatchPlayer.replay (player : List (Command × Addr)) (batch : Nat) :
    List IndexOp :=
  let entries := player.filter (fun p => p.1.batch == batch)
  ((replayFrames entries [[]]).reverse).flatten

/-- Apply one `IndexOp` at `commit` through the index writer, as matched
in `tree.rs` `BatchWriter::commit` lines 129-140. -/
def Index.applyOp (idx : Index) (commit : Nat) (op : IndexOp) : Index :=
  match op with
  | .Write key address => idx.writeKey commit key address
  | .Delete key address => idx.deleteKey commit key address
  | .DeleteRange s e address => idx.deleteKeyRange commit s e address

/-- `BatchWriter::commit` on one tree (`tree.rs` lines 126-142): replay
the batch from the player and apply every resulting `IndexOp` to the
index at `commit`, in order. Infallible (returns no `Result`). -/
def TreeBW.commitToIndex (ts : TreeState) (batch commit : Nat) : TreeState :=
  { ts with
      index := (BatchPlayer.replay ts.player batch).foldl
        (fun idx op => idx.applyOp commit op) ts.index }

/-- `2^64`: the modulus of the `u64` counters. -/
def U64MOD : Nat := 2 ^ 64

/-- `u64::MAX`, the reserved/forbidden identifier value. -/
def U64MAX : Nat := 2 ^ 64 - 1

/-- The part of `basic_db.rs` `Db` state that `BatchWriter::commit`
touches: the `next_commit` counter, the `view_commit_limit` watermark,
and the named trees (indexes promoted at commit). -/
structure DbState where
  next_commit : Nat
  view_commit_limit : Nat
  trees : List (String × TreeState)
deriving Repr, DecidableEq

/-- Outcome of `BatchWriter::commit`: success, a surfaced error (with the
state at the point of return), or a failed `assert!`/`expect` (panic). -/
inductive CommitOutcome where
  | ok (s : DbState)
  | err (e : Err) (s : DbState)
  | assertFail
deriving Repr, DecidableEq

/-- `BatchWriter::commit` (`basic_db.rs` lines 183-209), executed under
`commit_lock`: allocate `commit` by wrapping fetch-add on `next_commit`
and assert it is not `u64::MAX`; append the master commit record
(`commit_log.rs` is absent from `src/`; per §4.6 `CommitLog::commit`
appends one record and its failure is fatal to the batch commit — the
fallible append is the `masterOk` oracle); on failure return the error
with no further effect; on success infallibly promote every tree's
player to its index at `commit` via `commit_to_index`, then swap
`view_commit_limit` to `commit + 1` (`checked_add`, `expect` on
overflow) and assert the swapped-out value was strictly smaller. -/
def DbCommit (s : DbState) (batch : Nat) (masterOk : Bool) : CommitOutcome :=
  let commit := s.next_commit
  let s1 : DbState := { s with next_commit := (s.next_commit + 1) % U64MOD }
  if commit = U64MAX then .assertFail
  else if !masterOk then .err .commitMasterWriteFailed s1
  else
    let s2 : DbState := { s1 with
      trees := s1.trees.map (fun e => (e.1, TreeBW.commitToIndex e.2 batch commit)) }
    let new_commit_limit := commit + 1
    let old_commit_limit := s2.view_commit_limit
    if old_commit_limit < new_commit_limit then
      .ok { s2 with view_commit_limit := new_commit_limit }
    else .assertFail

/-- A serialized run of `BatchWriter::commit` calls (commits across
batches are serialized by `commit_lock`; the list order is the lock
acquisition order). Each element gives that call's master-append
outcome. Returns the final state, the `Commit` numbers assigned to the
successful commits in order, and the trace of `view_commit_limit`
values after each call; `none` if any assertion failed. -/
def runCommits (s : DbState) (batch : Nat) :
    List Bool → Option (DbState × List Nat × List Nat)
  | [] => some (s, [], [])
  | masterOk :: rest =>
    match DbCommit s batch masterOk with
    | .ok s' =>
      (runCommits s' batch rest).map
        (fun r => (r.1, s.next_commit :: r.2.1, s'.view_commit_limit :: r.2.2))
    | .err _ s' =>
      (runCommits s' batch rest).map
        (fun r => (r.1, r.2.1, s'.view_commit_limit :: r.2.2))
    | .assertFail => none

/-- The state accumulated by the ready/abort loop of
`WriteBatch::commit` (`imp.rs` lines 138-152): the first tree whose
`ready_commit` failed (the primary error), the trees whose
`ReadyCommit` record was appended, the trees to which a compensating
`abort_commit` was issued, and the trees whose compensating abort itself
failed (logged via `error!` only). -/
structure PhaseOne where
  error : Option String
  readied : List String
  aborted : List String
  abortLogged : List String
deriving Repr, DecidableEq

/-- One iteration of the `for tree in self.trees` loop of
`WriteBatch::commit` (`imp.rs` lines 139-152): while no error has been
observed, issue `ready_commit` (success oracle `readyOk`) and record the
first failure; once an error is set, issue `abort_commit` instead
(success oracle `abortOk`), logging — not returning — its failures. -/
def phaseOneStep (readyOk abortOk : String → Bool) (st : PhaseOne)
    (tree : String) : PhaseOne :=
  match st.error with
  | none =>
    if readyOk tree then { st with readied := st.readied ++ [tree] }
    else { st with error := some tree }
  | some _ =>
    if abortOk tree then { st with aborted := st.aborted ++ [tree] }
    else { st with aborted := st.aborted ++ [tree],
                   abortLogged := st.abortLogged ++ [tree] }

/-- The whole ready/abort loop of `WriteBatch::commit` over the
database's tree list. -/
def phaseOne (trees : List String) (readyOk abortOk : String → Bool) :
    PhaseOne :=
  trees.foldl (phaseOneStep readyOk abortOk) ⟨none, [], [], []⟩

/-- Outcome of `WriteBatch::commit`: the primary `ready_commit` error
(identified by the failing tree) returned without invoking
`BatchWriter::commit`, or the outcome of the invoked commit. -/
inductive WBOutcome where
  | readyErr (tree : String)
  | committed (o : CommitOutcome)
deriving Repr, DecidableEq

/-- `WriteBatch::commit` (`imp.rs` lines 136-161): run the ready/abort
loop; if any `ready_commit` failed return that first error — the inner
`BatchWriter::commit` is never invoked — otherwise invoke it. -/
def WriteBatch.commitModel (trees : List String)
    (readyOk abortOk : String → Bool) (s : DbState) (batch : Nat)
    (masterOk : Bool) : WBOutcome :=
  let p := phaseOne trees readyOk abortOk
  match p.error with
  | some t => .readyErr t
  | none => .committed (DbCommit s batch masterOk)

/-- The tree-name lookup shared by `BatchWriter::tree_writer`
(`basic_db.rs` lines 217-219, `self.batch_writers.get(tree)`) and
`ViewReader::read`/`cursor` (lines 226-239, `self.trees.get(tree)`);
`.expect("tree")` panics when the name is absent, modelled by `none`. -/
def treesLookup (trees : List (String × TreeState)) (tree : String) :
    Option TreeState :=
  match trees with
  | [] => none
  | (k, v) :: rest => if k = tree then some v else treesLookup rest tree

/-- `ViewReader::read` (`basic_db.rs` lines 227-230): look the tree up
(`expect("tree")` panic modelled as `none`) and read it at the view's
pinned `commit_limit`. -/
def ViewReader.readModel (trees : List (String × TreeState))
    (commit_limit : Nat) (tree : String) (key : Key) (readOk : Bool) :
    Option ReadOutcome :=
  (treesLookup trees tree).map (fun ts => Tree.readTree ts commit_limit key readOk)

/-- `compacting_tree.rs` `CompactState`. -/
inductive CompactState where
  | NotCompacting
  | Compacting
deriving Repr, DecidableEq

/-- `compacting_tree.rs` `Trees`: the per-tree compaction slots. -/
structure TreesSlots where
  active : TreeState
  compacting : Option TreeState
  compacted : Option TreeState
  compacted_wip : Option TreeState
  trash : List TreeState
deriving Repr, DecidableEq

/-- `CompactingTree::compact` (`compacting_tree.rs` lines 69-132): under
the `compact_state` mutex, a request made while the state is
`Compacting` returns `Ok(false)` at once; otherwise the state is set to
`Compacting`, the compaction body runs, and the state is set back to
`NotCompacting` before the body's result is returned. The body (slot
rotation through the merge loop and promotion, lines 87-124) is
abstracted as a fallible slot transformation `body`: its helpers
`move_active_tree_to_compacting`, `create_compacted_wip_tree` and
`wait_for_all_writes_to_compacting_tree` and its tail are unimplemented
stubs in `src/`. Returns the sequence of `compact_state` assignments
performed, the final state, the final slots, and the `Result<bool>`. -/
def CompactingTree.compact (cs : CompactState) (slots : TreesSlots)
    (body : TreesSlots → TreesSlots × Option Err) :
    List CompactState × CompactState × TreesSlots × (Option Err × Bool) :=
  match cs with
  | .Compacting => ([], .Compacting, slots, (none, false))
  | .NotCompacting =>
    let r := body slots
    ([.Compacting, .NotCompacting], .NotCompacting, r.1,
     (r.2, r.2.isNone))

/-- A constituent tree cursor of the compaction merge cursor, after
`seek_first`: the ordered list of its visible keys from the current
position. Modelled from the spec (§4.5): the tree/index cursors the
merge consumes are only declared in `src/` (`tree.rs::Cursor` and
`index.rs::Cursor` carry no implemented `seek_first`/`key`); a cursor at
`gen` iterates, in key order, the keys whose latest visible status below
`gen` is `Written` (tombstoned keys are skipped). -/
structure TCursor where
  keys : List Key
deriving Repr, DecidableEq

/-- The keys of an index visible as `Written` at `gen`, in key order. -/
def visibleWrittenKeys (idx : Index) (gen : Nat) : List Key :=
  ((idx.map Prod.fst).filter (fun k =>
    match idx.read gen k with
    | some (.Written _) => true
    | _ => false)).insertionSort (· < ·)

/-- `Tree::cursor(commit_limit)` (`tree.rs` lines 56-61) composed with
the spec-modelled constituent `seek_first`. -/
def Tree.cursorModel (ts : TreeState) (gen : Nat) : TCursor :=
  ⟨visibleWrittenKeys ts.index gen⟩

/-- The fold of `Cursor::seek_first` (`compacting_tree.rs` lines
172-193): enumerate the constituent cursors (each already sought to its
first key, `none` when invalid); keep the index of the smallest first
key, replacing the previous minimum only on a strictly smaller key — so
on equal keys the earlier (newer-source) cursor is kept. -/
def mergeSeekFirstAux : List (Option Key) → Nat → Option (Key × Nat) →
    Option (Key × Nat)
  | [], _, acc => acc
  | k? :: rest, idx, acc =>
    let acc' :=
      match k?, acc with
      | some key, some (min_key, min_idx) =>
        if key < min_key then some (key, idx) else some (min_key, min_idx)
      | some key, none => some (key, idx)
      | none, a => a
    mergeSeekFirstAux rest (idx + 1) acc'

/-- `Cursor::seek_first` over the merge cursor's constituent cursors:
the index the cursor comes to rest on (`self.current`). -/
def mergeSeekFirst (cursors : List TCursor) : Option Nat :=
  (mergeSeekFirstAux (cursors.map (fun c => c.keys.head?)) 0 none).map Prod.snd

/-- The key observed after `seek_first` (`Cursor::key`,
`compacting_tree.rs` lines 152-156): the current constituent cursor's
key. -/
def mergeFirstKey (cursors : List TCursor) : Option Key :=
  match mergeSeekFirst cursors with
  | some idx => (cursors[idx]?).bind (fun c => c.keys.head?)
  | none => none

/-- The cursor/writer opening step of `CompactingTree::compact`
(`compacting_tree.rs` lines 107-121) as the source writes it: BOTH
constituent cursors are opened from `trees.compacting` — the binding
named `compacted_cursor` on line 110 also reads
`trees.compacting.as_ref().expect("tree")` — and the `compacted_wip`
writer is opened with the sentinel `COMPACTED_BATCH_NUM = Batch(0)`
(line 111); `trees.compacted` is never read. The returned `Nat` is the
writer's batch sentinel; `none` models the `expect("tree")` panics. -/
def compactOpenCursors (slots : TreesSlots) (commit_limit : Nat) :
    Option (List TCursor × Nat) :=
  match slots.compacting, slots.compacted_wip with
  | some cting, some _ =>
    some ([Tree.cursorModel cting commit_limit,
           Tree.cursorModel cting commit_limit], 0)
  | _, _ => none

/-- The same step as the spec states it (§4.8 step 4, and the source's
own comment on lines 104-106): a merge cursor over `compacting` (at
`commit_limit`) and `compacted` (at `commit_limit`), and a
`compacted_wip` writer with sentinel `Batch(0)`. Stated from the spec's
words for comparison with `compactOpenCursors`. -/
def compactOpenCursorsSpec (slots : TreesSlots) (commit_limit : Nat) :
    Option (List TCursor × Nat) :=
  match slots.compacting, slots.compacted, slots.compacted_wip with
  | some cting, some cted, some _ =>
    some ([Tree.cursorModel cting commit_limit,
           Tree.cursorModel cted commit_limit], 0)
  | _, _, _ => none

/-- A tree with empty log, player and index. -/
def emptyTree : TreeState := { log := [], player := [], index := [] }

/-- A sample history: commits 0, 1 write, commit 5 deletes. -/
def exHist : History :=
  [(0, IdxValue.Written 0), (1, IdxValue.Written 1), (5, IdxValue.Deleted 2)]

/-- A sample index holding key `1` with history `exHist`. -/
def exIndex : Index := [(1, exHist)]

/-- A sample tree for the read path: the index points key `1` at
address 1, where the log holds `Write{0, 1, "v1"}`. -/
def exReadTree : TreeState :=
  { log := [Command.Write 0 9 "zz", Command.Write 0 1 "v1"],
    player := [],
    index := [(1, [(0, IdxValue.Written 1)])] }

/-- A sample tree whose player holds one write of batch 3. -/
def exCloseTree : TreeState :=
  { log := [Command.Write 3 1 "v"],
    player := [(Command.Write 3 1 "v", 0)],
    index := [] }

/-- A sample database state: `next_commit = 2`, `view_commit_limit = 1`,
one tree. -/
def exDb : DbState :=
  { next_commit := 2, view_commit_limit := 1, trees := [("t", emptyTree)] }

/-- Ready-commit success oracle that succeeds only on tree `"a"`. -/
def exReadyOk : String → Bool := fun t => t == "a"

/-- Abort-commit success oracle that always succeeds. -/
def exAbortOk : String → Bool := fun _ => true

/-- A `compacting` slot holding only key `2`, written at commit 0. -/
def exCompactingTree : TreeState :=
  { log := [Command.Write 1 2 "vb"], player := [],
    index := [(2, [(0, IdxValue.Written 0)])] }

/-- A `compacted` slot holding only key `1`, written at commit 0. -/
def exCompactedTree : TreeState :=
  { log := [Command.Write 0 1 "va"], player := [],
    index := [(1, [(0, IdxValue.Written 0)])] }

/-- Compaction slots where `compacting` holds key `2` and `compacted`
holds key `1`. -/
def exSlots : TreesSlots :=
  { active := emptyTree,
    compacting := some exCompactingTree,
    compacted := some exCompactedTree,
    compacted_wip := some emptyTree,
    trash := [] }

/-- A one-tree map binding name `"a"`. -/
def exMap : List (String × TreeState) := [("a", emptyTree)]

lemma histLookup_eq_none_iff (gen : Nat) (l : History) :
    histLookup gen l = none ↔ ∀ e ∈ l, gen ≤ e.1 := by
  induction l with
  | nil => simp [histLookup]
  | cons e rest ih =>
    by_cases h : e.1 < gen
    · simp only [histLookup, if_pos h, List.mem_cons]
      constructor
      · intro hc; exact absurd hc (by simp)
      · intro hall; exact absurd (hall e (Or.inl rfl)) (by omega)
    · simp only [histLookup, if_neg h, List.mem_cons, ih]
      constructor
      · intro hall e' he'
        rcases he' with rfl | he'
        · omega
        · exact hall e' he'
      · intro hall e' he'; exact hall e' (Or.inr he')

lemma histLookup_eq_some_iff (gen : Nat) (l : History) (v : IdxValue) :
    histLookup gen l = some v ↔
      ∃ g l1 l2, l = l1 ++ (g, v) :: l2 ∧ g < gen ∧ ∀ e ∈ l1, gen ≤ e.1 := by
  induction l with
  | nil =>
    simp only [histLookup]
    constructor
    · intro hc; exact absurd hc (by simp)
    · rintro ⟨g, l1, l2, heq, -, -⟩; exact absurd heq (by simp)
  | cons e rest ih =>
    by_cases h : e.1 < gen
    · simp only [histLookup, if_pos h, Option.some_inj]
      constructor
      · rintro rfl; exact ⟨e.1, [], rest, by simp, h, by simp⟩
      · rintro ⟨g, l1, l2, heq, hg, hl1⟩
        cases l1 with
        | nil =>
          injection heq with h1 h2
          rw [h1]
        | cons x l1' =>
          injection heq with h1 h2
          have hx := hl1 x (by simp)
          rw [h1] at h
          omega
    · simp only [histLookup, if_neg h, ih]
      constructor
      · rintro ⟨g, l1, l2, rfl, hg, hl1⟩
        refine ⟨g, e :: l1, l2, by simp, hg, ?_⟩
        intro x hx
        rcases List.mem_cons.mp hx with rfl | hx'
        · omega
        · exact hl1 x hx'
      · rintro ⟨g, l1, l2, heq, hg, hl1⟩
        cases l1 with
        | nil =>
          injection heq with h1 h2
          exfalso
          have : e.1 = g := by rw [h1]
          omega
        | cons x l1' =>
          injection heq with h1 h2
          exact ⟨g, l1', l2, h2, hg, fun y hy => hl1 y (List.mem_cons_of_mem x hy)⟩

/-- C2: `Index::read(gen, key)` returns the value of the newest history
entry of the key's node whose generation is strictly below `gen` — the
node's history decomposes as `l1 ++ (g, v) :: l2` with `g < gen` and
every later entry (in `l2`) at generation `≥ gen` — and returns `none`
when the key is absent or no entry has generation `< gen`; in
particular a reader pinned at `gen` never observes an entry written at
generation `≥ gen`. -/
theorem index_read_mvcc (idx : Index) (gen : Nat) (key : Key) :
    (idx.lookupNode key = none → idx.read gen key = none) ∧
    ∀ history, idx.lookupNode key = some history →
      ((idx.read gen key = none ↔ ∀ e ∈ history, gen ≤ e.1) ∧
       ∀ v, idx.read gen key = some v ↔
          ∃ g l1 l2, history = l1 ++ (g, v) :: l2 ∧ g < gen ∧
            ∀ e ∈ l2, gen ≤ e.1) := by
  constructor
  · intro h; simp [Index.read, h]
  · intro history hh
    constructor
    · simp only [Index.read, hh, histLookup_eq_none_iff]
      constructor
      · intro hall e he; exact hall e (List.mem_reverse.mpr he)
      · intro hall e he; exact hall e (List.mem_reverse.mp he)
    · intro v
      simp only [Index.read, hh, histLookup_eq_some_iff]
      constructor
      · rintro ⟨g, l1, l2, heq, hg, hl1⟩
        refine ⟨g, l2.reverse, l1.reverse, ?_, hg, ?_⟩
        · have h2 := congrArg List.reverse heq
          simp only [List.reverse_reverse, List.reverse_append,
            List.reverse_cons] at h2
          simpa using h2
        · intro e he; exact hl1 e (List.mem_reverse.mp he)
      · rintro ⟨g, l1, l2, heq, hg, hl2⟩
        refine ⟨g, l2.reverse, l1.reverse, ?_, hg, ?_⟩
        · rw [heq]
          simp only [List.reverse_append, List.reverse_cons]
          simp
        · intro e he; exact hl2 e (List.mem_reverse.mp he)

/-- C2 witness: on `exIndex` at generation 2, the read returns the
commit-1 write, the newest entry below the pin. -/
theorem index_read_mvcc_witness :
    Index.read exIndex 2 1 = some (IdxValue.Written 1) :=
  (((index_read_mvcc exIndex 2 1).2 exHist rfl).2 (IdxValue.Written 1)).mpr
    ⟨1, [(0, IdxValue.Written 0)], [(5, IdxValue.Deleted 2)], rfl,
      by omega, by decide⟩

/-- C3: `Tree::read(commit_limit, key)` queries the index at
`commit_limit`; a visible `Written(addr)` reads the record at `addr`
from the log — a matching-key `Write` yields `Some(value)`, a mismatched
key fails the assert, any other record is the "unexpected command in
log" error, and a log read failure propagates; a visible `Deleted(_)` or
an absent key yields `None` for every log content and every log-read
outcome, i.e. without touching the log. -/
theorem tree_read_path (ts : TreeState) (limit : Nat) (key : Key) :
    (∀ addr b v, ts.index.read limit key = some (.Written addr) →
      ts.log[addr]? = some (.Write b key v) →
      Tree.readTree ts limit key true = .ok (some v)) ∧
    (∀ addr cmd, ts.index.read limit key = some (.Written addr) →
      ts.log[addr]? = some cmd → (∀ b k v, cmd ≠ .Write b k v) →
      Tree.readTree ts limit key true = .err .unexpectedCommand) ∧
    (∀ addr, ts.index.read limit key = some (.Written addr) →
      Tree.readTree ts limit key false = .err .logIo) ∧
    (∀ addr readOk lg, ts.index.read limit key = some (.Deleted addr) →
      Tree.readTree { ts with log := lg } limit key readOk = .ok none) ∧
    (∀ readOk lg, ts.index.read limit key = none →
      Tree.readTree { ts with log := lg } limit key readOk = .ok none) := by
  refine ⟨?_, ?_, ?_, ?_, ?_⟩
  · intro addr b v h1 h2
    simp [Tree.readTree, h1, h2]
  · intro addr cmd h1 h2 h3
    cases cmd with
    | Write b k v => exact absurd rfl (h3 b k v)
    | _ => simp [Tree.readTree, h1, h2]
  · intro addr h1
    simp [Tree.readTree, h1]
  · intro addr readOk lg h1
    simp [Tree.readTree, h1]
  · intro readOk lg h1
    simp [Tree.readTree, h1]

/-- C3 witness: on `exReadTree` at limit 1, key `1` resolves through
address 1 of the log to `Some "v1"`. -/
theorem tree_read_path_witness :
    Tree.readTree exReadTree 1 1 true = .ok (some "v1") :=
  (tree_read_path exReadTree 1 1).1 1 0 "v1" (by decide) (by decide)

lemma u64max_succ : U64MAX + 1 = U64MOD := by
  norm_num [U64MAX, U64MOD]

lemma mod_u64_of_le {n : Nat} (h : n ≤ U64MAX) : n % U64MOD = n := by
  have h1 : U64MAX + 1 = U64MOD := u64max_succ
  exact Nat.mod_eq_of_lt (by omega)

lemma DbCommit_false_eq (s : DbState) (batch : Nat)
    (h : s.next_commit ≠ U64MAX) :
    DbCommit s batch false = .err .commitMasterWriteFailed
      { s with next_commit := (s.next_commit + 1) % U64MOD } := by
  simp [DbCommit, h]

lemma DbCommit_true_eq (s : DbState) (batch : Nat)
    (h : s.next_commit ≠ U64MAX)
    (h2 : s.view_commit_limit ≤ s.next_commit) :
    DbCommit s batch true = .ok
      { next_commit := (s.next_commit + 1) % U64MOD,
        view_commit_limit := s.next_commit + 1,
        trees := s.trees.map
          (fun e => (e.1, TreeBW.commitToIndex e.2 batch s.next_commit)) } := by
  have hlt : s.view_commit_limit < s.next_commit + 1 := by omega
  simp [DbCommit, h, hlt]

/-- C1: in `BatchWriter::commit`, if the master commit record append
fails the commit returns `CommitMasterWriteFailed` and the state is
unchanged except for the allocated `next_commit` counter — the trees
(hence every tree index) and `view_commit_limit` are exactly those of
the pre-state; once the master append succeeds, every subsequent step
succeeds without error: the outcome is `ok`, each tree's player is
promoted into its index at the allocated commit, and
`view_commit_limit` is advanced to `commit + 1`. -/
theorem commit_master_single_point_of_failure (s : DbState) (batch : Nat)
    (hmax : s.next_commit ≠ U64MAX)
    (hvcl : s.view_commit_limit ≤ s.next_commit) :
    DbCommit s batch false = .err .commitMasterWriteFailed
      { s with next_commit := (s.next_commit + 1) % U64MOD } ∧
    DbCommit s batch true = .ok
      { next_commit := (s.next_commit + 1) % U64MOD,
        view_commit_limit := s.next_commit + 1,
        trees := s.trees.map
          (fun e => (e.1, TreeBW.commitToIndex e.2 batch s.next_commit)) } :=
  ⟨DbCommit_false_eq s batch hmax, DbCommit_true_eq s batch hmax hvcl⟩

/-- C1 witness: on `exDb` (next commit 2, watermark 1), a failed master
append aborts the commit with trees and watermark intact, and a
successful one promotes and advances the watermark to 3. -/
theorem commit_master_single_point_of_failure_witness :
    DbCommit exDb 7 false = .err .commitMasterWriteFailed
      { exDb with next_commit := (exDb.next_commit + 1) % U64MOD } ∧
    DbCommit exDb 7 true = .ok
      { next_commit := (exDb.next_commit + 1) % U64MOD,
        view_commit_limit := exDb.next_commit + 1,
        trees := exDb.trees.map
          (fun e => (e.1, TreeBW.commitToIndex e.2 7 exDb.next_commit)) } :=
  commit_master_single_point_of_failure exDb 7 (by decide) (by decide)

lemma runCommits_spec (batch : Nat) (outcomes : List Bool) :
    ∀ s : DbState, s.next_commit + outcomes.length ≤ U64MAX →
      s.view_commit_limit ≤ s.next_commit →
      ∃ s' commits vcls,
        runCommits s batch outcomes = some (s', commits, vcls) ∧
        (∀ c ∈ commits, s.next_commit ≤ c) ∧
        commits.Pairwise (· < ·) ∧
        (∀ v ∈ vcls, s.view_commit_limit ≤ v) ∧
        vcls.Pairwise (· ≤ ·) ∧
        s.view_commit_limit ≤ s'.view_commit_limit ∧
        s'.view_commit_limit ≤ s'.next_commit := by
  induction outcomes with
  | nil =>
    intro s _ h2
    exact ⟨s, [], [], rfl, by simp, by simp, by simp, by simp, le_refl _, h2⟩
  | cons masterOk rest ih =>
    intro s h1 h2
    have hlen : s.next_commit + rest.length + 1 ≤ U64MAX := by
      simp only [List.length_cons] at h1; omega
    have hmax : s.next_commit ≠ U64MAX := by omega
    have hmod : (s.next_commit + 1) % U64MOD = s.next_commit + 1 :=
      mod_u64_of_le (by omega)
    cases masterOk with
    | false =>
      obtain ⟨s', commits, vcls, hrun, hc_lb, hc_pw, hv_lb, hv_pw, hvle, hinv⟩ :=
        ih { s with next_commit := s.next_commit + 1 }
          (by simp; omega) (by simp; omega)
      refine ⟨s', commits, s.view_commit_limit :: vcls, ?_, ?_, hc_pw, ?_, ?_, ?_, hinv⟩
      · simp [runCommits, DbCommit_false_eq s batch hmax, hmod, hrun]
      · intro c hc
        have := hc_lb c hc
        simp at this
        omega
      · intro v hv
        rcases List.mem_cons.mp hv with rfl | hv'
        · exact le_refl _
        · simpa using hv_lb v hv'
      · exact List.pairwise_cons.mpr ⟨fun v hv => by simpa using hv_lb v hv, hv_pw⟩
      · simpa using hvle
    | true =>
      obtain ⟨s', commits, vcls, hrun, hc_lb, hc_pw, hv_lb, hv_pw, hvle, hinv⟩ :=
        ih { next_commit := s.next_commit + 1,
             view_commit_limit := s.next_commit + 1,
             trees := s.trees.map
               (fun e => (e.1, TreeBW.commitToIndex e.2 batch s.next_commit)) }
          (by simp; omega) (by simp)
      refine ⟨s', s.next_commit :: commits, (s.next_commit + 1) :: vcls,
        ?_, ?_, ?_, ?_, ?_, ?_, hinv⟩
      · simp [runCommits, DbCommit_true_eq s batch hmax h2, hmod, hrun]
      · intro c hc
        rcases List.mem_cons.mp hc with rfl | hc'
        · exact le_refl _
        · have := hc_lb c hc'
          simp at this
          omega
      · refine List.pairwise_cons.mpr ⟨fun c hc => ?_, hc_pw⟩
        have := hc_lb c hc
        simp at this
        omega
      · intro v hv
        rcases List.mem_cons.mp hv with rfl | hv'
        · omega
        · have := hv_lb v hv'
          simp at this
          omega
      · refine List.pairwise_cons.mpr ⟨fun v hv => ?_, hv_pw⟩
        have := hv_lb v hv
        simpa using this
      · have : s.view_commit_limit ≤ s.next_commit + 1 := by omega
        simp at hvle
        omega

/-- C4: over any serialized sequence of `BatchWriter::commit` calls (the
list order being the `commit_lock` acquisition order), no assertion
fires, the `view_commit_limit` trace starting from the initial value is
monotonically non-decreasing, the `Commit` numbers assigned to the
successful commits are strictly increasing in lock order — hence no two
successful commits share a number — and each successful commit swaps
`view_commit_limit` to `commit + 1` with the swapped-out value strictly
smaller. -/
theorem view_commit_limit_monotone (s : DbState) (batch : Nat)
    (outcomes : List Bool)
    (h1 : s.next_commit + outcomes.length ≤ U64MAX)
    (h2 : s.view_commit_limit ≤ s.next_commit) :
    ∃ s' commits vcls,
      runCommits s batch outcomes = some (s', commits, vcls) ∧
      (s.view_commit_limit :: vcls).Pairwise (· ≤ ·) ∧
      commits.Pairwise (· < ·) ∧
      commits.Pairwise (· ≠ ·) ∧
      (∀ t u : DbState, DbCommit t batch true = .ok u →
        u.view_commit_limit = t.next_commit + 1 ∧
        t.view_commit_limit < u.view_commit_limit) := by
  obtain ⟨s', commits, vcls, hrun, _, hc_pw, hv_lb, hv_pw, _, _⟩ :=
    runCommits_spec batch outcomes s h1 h2
  refine ⟨s', commits, vcls, hrun,
    List.pairwise_cons.mpr ⟨hv_lb, hv_pw⟩, hc_pw,
    hc_pw.imp (fun h => Nat.ne_of_lt h), ?_⟩
  intro t u h
  by_cases hmax : t.next_commit = U64MAX
  · simp [DbCommit, hmax] at h
  · by_cases hlt : t.view_commit_limit ≤ t.next_commit
    · rw [DbCommit_true_eq t batch hmax hlt] at h
      injection h with h'
      rw [← h']
      refine ⟨rfl, ?_⟩
      simp
      omega
    · exfalso
      have hnlt : ¬ t.view_commit_limit < t.next_commit + 1 := by omega
      simp [DbCommit, hmax, hnlt] at h

/-- C4 witness: a concrete run of three commits (success, master-append
failure, success) from `exDb`. -/
theorem view_commit_limit_monotone_witness :
    ∃ s' commits vcls,
      runCommits exDb 7 [true, false, true] = some (s', commits, vcls) ∧
      (exDb.view_commit_limit :: vcls).Pairwise (· ≤ ·) ∧
      commits.Pairwise (· < ·) ∧
      commits.Pairwise (· ≠ ·) ∧
      (∀ t u : DbState, DbCommit t 7 true = .ok u →
        u.view_commit_limit = t.next_commit + 1 ∧
        t.view_commit_limit < u.view_commit_limit) :=
  view_commit_limit_monotone exDb 7 [true, false, true]
    (by decide) (by decide)

lemma phaseOne_foldl_ready (readyOk abortOk : String → Bool) :
    ∀ (pre : List String) (st : PhaseOne), st.error = none →
      (∀ t ∈ pre, readyOk t = true) →
      pre.foldl (phaseOneStep readyOk abortOk) st =
        { st with readied := st.readied ++ pre } := by
  intro pre
  induction pre with
  | nil => intro st _ _; simp
  | cons t pre' ih =>
    intro st herr hall
    have ht : readyOk t = true := hall t (by simp)
    have hstep : phaseOneStep readyOk abortOk st t =
        { st with readied := st.readied ++ [t] } := by
      simp [phaseOneStep, herr, ht]
    rw [List.foldl_cons, hstep,
      ih { st with readied := st.readied ++ [t] } herr
        (fun u hu => hall u (by simp [hu]))]
    simp

lemma phaseOne_foldl_abort (readyOk abortOk : String → Bool) :
    ∀ (suf : List String) (st : PhaseOne) (t : String), st.error = some t →
      (suf.foldl (phaseOneStep readyOk abortOk) st).error = some t ∧
      (suf.foldl (phaseOneStep readyOk abortOk) st).readied = st.readied ∧
      (suf.foldl (phaseOneStep readyOk abortOk) st).aborted =
        st.aborted ++ suf := by
  intro suf
  induction suf with
  | nil => intro st t herr; exact ⟨herr, rfl, by simp⟩
  | cons u suf' ih =>
    intro st t herr
    cases hu : abortOk u with
    | true =>
      have hstep : phaseOneStep readyOk abortOk st u =
          { st with aborted := st.aborted ++ [u] } := by
        simp [phaseOneStep, herr, hu]
      obtain ⟨h1, h2, h3⟩ := ih { st with aborted := st.aborted ++ [u] } t herr
      rw [List.foldl_cons, hstep]
      exact ⟨h1, h2, by rw [h3]; simp⟩
    | false =>
      have hstep : phaseOneStep readyOk abortOk st u =
          { st with aborted := st.aborted ++ [u],
                    abortLogged := st.abortLogged ++ [u] } := by
        simp [phaseOneStep, herr, hu]
      obtain ⟨h1, h2, h3⟩ :=
        ih { st with aborted := st.aborted ++ [u],
                     abortLogged := st.abortLogged ++ [u] } t herr
      rw [List.foldl_cons, hstep]
      exact ⟨h1, h2, by rw [h3]; simp⟩

/-- C5 counterexample: with trees `["a", "b", "c"]`, `ready_commit`
succeeding on `"a"` and failing on `"b"`, the loop of
`WriteBatch::commit` issues the compensating `abort_commit` to the
remaining tree `"c"` and NOT to the already-ready tree `"a"` — refuting
the claim that compensating aborts are written to the already-ready
trees. -/
theorem ready_fail_aborts_remaining_not_readied :
    (phaseOne ["a", "b", "c"] exReadyOk exAbortOk).error = some "b" ∧
    (phaseOne ["a", "b", "c"] exReadyOk exAbortOk).readied = ["a"] ∧
    (phaseOne ["a", "b", "c"] exReadyOk exAbortOk).aborted = ["c"] ∧
    "a" ∉ (phaseOne ["a", "b", "c"] exReadyOk exAbortOk).aborted := by
  decide

/-- C5 (amended): when `ready_commit` first fails on tree `t0` — the
trees before it all readied — `WriteBatch::commit` is aborted:
compensating `abort_commit` records are best-effort issued to the
REMAINING trees (those after `t0`, not the already-ready ones), the
compensating aborts' own failures (any `abortOk` oracle) never displace
the primary error, the first observed `ready_commit` error is returned,
and the inner `BatchWriter::commit` is never invoked (the result is
`readyErr` for every database state and master-append outcome). -/
theorem ready_commit_failure_aborts (pre suf : List String) (t0 : String)
    (readyOk abortOk : String → Bool) (s : DbState) (batch : Nat)
    (masterOk : Bool)
    (hpre : ∀ t ∈ pre, readyOk t = true) (h0 : readyOk t0 = false) :
    (phaseOne (pre ++ t0 :: suf) readyOk abortOk).error = some t0 ∧
    (phaseOne (pre ++ t0 :: suf) readyOk abortOk).readied = pre ∧
    (phaseOne (pre ++ t0 :: suf) readyOk abortOk).aborted = suf ∧
    WriteBatch.commitModel (pre ++ t0 :: suf) readyOk abortOk s batch
      masterOk = .readyErr t0 := by
  have hready := phaseOne_foldl_ready readyOk abortOk pre
    ⟨none, [], [], []⟩ rfl hpre
  have hstep : phaseOneStep readyOk abortOk
      { (⟨none, [], [], []⟩ : PhaseOne) with readied := [] ++ pre } t0 =
      { error := some t0, readied := pre, aborted := [], abortLogged := [] } := by
    simp [phaseOneStep, h0]
  have habort := phaseOne_foldl_abort readyOk abortOk suf
    { error := some t0, readied := pre, aborted := [], abortLogged := [] }
    t0 rfl
  have hfold : phaseOne (pre ++ t0 :: suf) readyOk abortOk =
      suf.foldl (phaseOneStep readyOk abortOk)
        { error := some t0, readied := pre, aborted := [], abortLogged := [] } := by
    rw [phaseOne, List.foldl_append, hready, List.foldl_cons, hstep]
  refine ⟨?_, ?_, ?_, ?_⟩
  · rw [hfold]; exact habort.1
  · rw [hfold]; exact habort.2.1
  · rw [hfold]; rw [habort.2.2]; simp
  · rw [WriteBatch.commitModel]
    rw [hfold]
    rw [habort.1]

/-- C5 witness: the amended statement at the concrete failing run of the
counterexample. -/
theorem ready_commit_failure_aborts_witness :
    (phaseOne (["a"] ++ "b" :: ["c"]) exReadyOk exAbortOk).error = some "b" ∧
    (phaseOne (["a"] ++ "b" :: ["c"]) exReadyOk exAbortOk).readied = ["a"] ∧
    (phaseOne (["a"] ++ "b" :: ["c"]) exReadyOk exAbortOk).aborted = ["c"] ∧
    WriteBatch.commitModel (["a"] ++ "b" :: ["c"]) exReadyOk exAbortOk exDb 7
      true = .readyErr "b" :=
  ready_commit_failure_aborts ["a"] ["c"] "b" exReadyOk exAbortOk exDb 7 true
    (by decide) (by decide)

/-- C6 evaluation at the failing input: on slots where `compacting`
holds only key `2` and `compacted` holds only the smaller key `1`, the
cursor-opening step as the source writes it (line 110 reads
`trees.compacting` for the "compacted" cursor) yields a merge cursor
whose `seek_first` observes key `2` — the compacted tree's key `1` is
never merged — while the opening as the source's own comment and the
spec state it yields `1`; moreover `seek_first` does tie-break equal
keys towards the earlier (compacting) constituent cursor. -/
theorem compact_opens_compacted_cursor_on_compacting :
    (compactOpenCursors exSlots 1).map (fun p => mergeFirstKey p.1) =
      some (some 2) ∧
    (compactOpenCursorsSpec exSlots 1).map (fun p => mergeFirstKey p.1) =
      some (some 1) ∧
    mergeSeekFirst [⟨[5]⟩, ⟨[5]⟩] = some 0 := by
  decide

/-- C7: the per-tree compaction state machine admits no concurrent
compaction: `compact` invoked while the state is `Compacting` returns
`Ok(false)` with the tree slots untouched and performs no state
assignment; invoked while `NotCompacting` it assigns `Compacting`, runs
the body, and assigns `NotCompacting` back before returning the body's
result — whether the body succeeds or fails. -/
theorem compact_state_machine (slots : TreesSlots)
    (body : TreesSlots → TreesSlots × Option Err) :
    CompactingTree.compact .Compacting slots body =
      ([], .Compacting, slots, (none, false)) ∧
    CompactingTree.compact .NotCompacting slots body =
      ([.Compacting, .NotCompacting], .NotCompacting, (body slots).1,
        ((body slots).2, (body slots).2.isNone)) :=
  ⟨rfl, rfl⟩

/-- C8 counterexample: on a successful `Close` append, `close` does
touch the batch player — `append_record` records the
`(Close, address)` pair — refuting the claim that the player's state is
left untouched when the append succeeds. -/
theorem close_records_close_counterexample :
    ¬ (TreeBW.close exCloseTree 3 true).1.player = exCloseTree.player := by
  decide

/-- C8 (amended): `close` appends `Close{batch}` through the ordinary
`append_record` path: when the append succeeds the `(Close, address)`
pair is recorded in the batch player — the rest of the player's scratch
is preserved — and when the append fails, `emergency_close(batch)` is
invoked on the player to discard the batch's scratch and the append
error is returned. -/
theorem close_appends_or_emergency_closes (ts : TreeState) (batch : Nat) :
    TreeBW.close ts batch true =
      ({ ts with log := ts.log ++ [.Close batch],
                 player := ts.player ++ [(.Close batch, ts.log.length)] },
       none) ∧
    TreeBW.close ts batch false =
      ({ ts with player := BatchPlayer.emergencyClose ts.player batch },
       some .logIo) :=
  ⟨rfl, rfl⟩

/-- C9: every `BatchWriter` mutator — `open`, `write`, `delete`,
`delete_range`, the three save-point operations, `ready_commit`,
`abort_commit` — goes through `append_record`, which appends the typed
record to the tree's log and, only when the append succeeds, records the
`(command, address)` pair in the tree's batch player; when the append
fails the tree state (log and player) is returned unchanged with the
error. -/
theorem mutators_append_then_record (ts : TreeState)
    (batch batch_commit : Nat) (key start_key end_key : Key) (value : Val) :
    (∀ cmd, TreeBW.appendRecord ts cmd true =
      ({ ts with log := ts.log ++ [cmd],
                 player := ts.player ++ [(cmd, ts.log.length)] }, none)) ∧
    (∀ cmd, TreeBW.appendRecord ts cmd false = (ts, some .logIo)) ∧
    (∀ ok, TreeBW.openTree ts batch ok =
      TreeBW.appendRecord ts (.Open batch) ok) ∧
    (∀ ok, TreeBW.write ts batch key value ok =
      TreeBW.appendRecord ts (.Write batch key value) ok) ∧
    (∀ ok, TreeBW.delete ts batch key ok =
      TreeBW.appendRecord ts (.Delete batch key) ok) ∧
    (∀ ok, TreeBW.deleteRange ts batch start_key end_key ok =
      TreeBW.appendRecord ts (.DeleteRange batch start_key end_key) ok) ∧
    (∀ ok, TreeBW.pushSavePoint ts batch ok =
      TreeBW.appendRecord ts (.PushSavePoint batch) ok) ∧
    (∀ ok, TreeBW.popSavePoint ts batch ok =
      TreeBW.appendRecord ts (.PopSavePoint batch) ok) ∧
    (∀ ok, TreeBW.rollbackSavePoint ts batch ok =
      TreeBW.appendRecord ts (.RollbackSavePoint batch) ok) ∧
    (∀ ok, TreeBW.readyCommit ts batch batch_commit ok =
      TreeBW.appendRecord ts (.ReadyCommit batch batch_commit) ok) ∧
    (∀ ok, TreeBW.abortCommit ts batch batch_commit ok =
      TreeBW.appendRecord ts (.AbortCommit batch batch_commit) ok) :=
  ⟨fun _ => rfl, fun _ => rfl, fun _ => rfl, fun _ => rfl, fun _ => rfl,
   fun _ => rfl, fun _ => rfl, fun _ => rfl, fun _ => rfl, fun _ => rfl,
   fun _ => rfl⟩

/-- C10: the tree-name lookup used by the `BatchWriter` mutators,
commit-preparation and `close` (`tree_writer`) and by
`ViewReader::read`/`cursor`: a name not in the map fixed at construction
hits the `expect("tree")` panic (modelled by `none`), and every
configured name resolves to its tree, so the panic branch is
unreachable for configured trees. -/
theorem tree_lookup_total_on_configured (m : List (String × TreeState))
    (t : String) :
    (t ∉ m.map Prod.fst → treesLookup m t = none) ∧
    (t ∈ m.map Prod.fst → ∃ w, treesLookup m t = some w) ∧
    (∀ limit key readOk, t ∉ m.map Prod.fst →
      ViewReader.readModel m limit t key readOk = none) ∧
    (∀ limit key readOk, t ∈ m.map Prod.fst →
      (ViewReader.readModel m limit t key readOk).isSome) := by
  have hbase : (t ∉ m.map Prod.fst → treesLookup m t = none) ∧
      (t ∈ m.map Prod.fst → ∃ w, treesLookup m t = some w) := by
    induction m with
    | nil => exact ⟨fun _ => rfl, by simp⟩
    | cons e rest ih =>
      by_cases hk : e.1 = t
      · refine ⟨fun hmem => absurd ?_ hmem, fun _ => ⟨e.2, ?_⟩⟩
        · simp [← hk]
        · simp [treesLookup, hk]
      · constructor
        · intro hmem
          have : t ∉ rest.map Prod.fst := by
            intro hc; exact hmem (by simp [hc])
          simp [treesLookup, hk, ih.1 this]
        · intro hmem
          have : t ∈ rest.map Prod.fst := by
            rw [List.map_cons] at hmem
            rcases List.mem_cons.mp hmem with h | h
            · exact absurd h.symm hk
            · exact h
          obtain ⟨w, hw⟩ := ih.2 this
          exact ⟨w, by simp [treesLookup, hk, hw]⟩
  refine ⟨hbase.1, hbase.2, ?_, ?_⟩
  · intro limit key readOk hmem
    simp [ViewReader.readModel, hbase.1 hmem]
  · intro limit key readOk hmem
    obtain ⟨w, hw⟩ := hbase.2 hmem
    simp [ViewReader.readModel, hw]

/-- C10 witness: on the one-tree map `exMap`, the unconfigured name
`"b"` hits the panic branch and the configured name `"a"` resolves. -/
theorem tree_lookup_total_on_configured_witness :
    treesLookup exMap "b" = none ∧ (∃ w, treesLookup exMap "a" = some w) :=
  ⟨(tree_lookup_total_on_configured exMap "b").1 (by decide),
   (tree_lookup_total_on_configured exMap "a").2.1 (by decide)⟩

end BlockRust
